import Mathlib

/-!
Verification of the duration-reconciliation and caption-synthesis core of the
`edit-videos` repository, embedded shallowly in Lean 4.

Sources embedded here:
- `src/videomerge/services/stitcher.py`: `_compute_clip_plan` and the
  boundary-trim step of `concat_videos_with_voiceover`.
- `src/videomerge/services/subtitles.py`: `_clean_chunk_text` and
  `build_chunks_from_words`.

Python floats are modelled as rationals (`ℚ`): every comparison the code makes
is an order comparison guarded by explicit epsilons, so the algorithmic content
is exact arithmetic over the probed values.  Python strings are modelled as
`String` / `List Char`; the whitespace predicate is `Char.isWhitespace`
(space, tab, carriage return, newline), which covers every character these
functions are exercised with here.
-/

/-! ## DurationPlanner: `_compute_clip_plan` (stitcher.py lines 21-61) -/

/-- The epsilon used by `_compute_clip_plan` (the literal `1e-3` at
stitcher.py lines 47 and 53). -/
def eps : ℚ := 1/1000

/-- The selection loop of `_compute_clip_plan` (stitcher.py lines 44-61).
`planLoop target rest acc` returns the clips selected from `rest` onwards
(given accumulated full-clip duration `acc`), the trim length for the last
selected clip, and the needs-trimming flag.  Clips are identified with their
durations: the source walks `zip(video_paths, durations)` and selecting a path
corresponds one-to-one with selecting its duration. -/
def planLoop (target : ℚ) : List ℚ → ℚ → List ℚ × ℚ × Bool
  | [], _ => ([], 0, false)
  | d :: rest, acc =>
    if acc + d < target - eps then
      -- `if acc + d < voiceover_duration - 1e-3: selected.append(p); acc += d`
      let r := planLoop target rest (acc + d)
      (d :: r.1, r.2)
    else if eps < max 0 (target - acc) then
      -- `remaining = max(0.0, voiceover_duration - acc)`, `remaining > 1e-3`
      ([d], max 0 (target - acc), true)
    else
      ([], 0, false)

/-- `_compute_clip_plan(video_paths, voiceover_duration)` over the probed clip
durations (stitcher.py lines 21-61).  Note the guard at line 39 is
`voiceover_duration >= total` with no epsilon. -/
def compute_clip_plan (durations : List ℚ) (target : ℚ) : List ℚ × ℚ × Bool :=
  if durations.sum ≤ target then (durations, 0, false)
  else planLoop target durations 0

/-- The clips a plan keeps at full length: all selected clips, except that when
`needs_trimming` is set the last selected clip is the trim target (per the
docstring of `_compute_clip_plan`, stitcher.py lines 26-30). -/
def planFullClips (r : List ℚ × ℚ × Bool) : List ℚ :=
  if r.2.2 then r.1.dropLast else r.1

/-! ## Coordinator boundary-trim step (stitcher.py lines 176-186) -/

/-- `SAFETY_MARGIN_SEC = 0.05` (stitcher.py line 185). -/
def SAFETY_MARGIN_SEC : ℚ := 1/20

/-- Python `x or default` on an optional float: `None` and `0.0` are falsy. -/
def pyOrQ (o : Option ℚ) (default : ℚ) : ℚ :=
  match o with
  | none => default
  | some x => if x = 0 then default else x

/-- The boundary-trim request made by `concat_videos_with_voiceover`
(stitcher.py lines 176-186): a trim is performed only under
`needs_trim and last_clip_target_len > 0.01`; the requested cut length is
`min(_src_len, last_clip_target_len + SAFETY_MARGIN_SEC)` where
`_src_len = get_duration(last_src) or last_clip_target_len`.
Returns `some length` when a trim command is issued, `none` otherwise. -/
def coordinatorTrimRequest (needs_trim : Bool) (lastClipTargetLen : ℚ)
    (srcDur : Option ℚ) : Option ℚ :=
  if needs_trim ∧ 1/100 < lastClipTargetLen then
    some (min (pyOrQ srcDur lastClipTargetLen) (lastClipTargetLen + SAFETY_MARGIN_SEC))
  else none

/-! ## Text cleaning: `_clean_chunk_text` (subtitles.py lines 66-73) -/

/-- The quote characters stripped from token ends (subtitles.py line 67):
double quote (34), apostrophe (39), and the four curly quotes U+201C, U+201D,
U+2018, U+2019. -/
def quoteChars : List Char :=
  [Char.ofNat 34, Char.ofNat 39, Char.ofNat 8220, Char.ofNat 8221,
   Char.ofNat 8216, Char.ofNat 8217]

/-- The trailing punctuation set `,.;:!?…` (subtitles.py line 71);
U+2026 is the horizontal ellipsis. -/
def punctTrail : List Char := [',', '.', ';', ':', '!', '?', Char.ofNat 8230]

/-- Drop the longest suffix of characters satisfying `p`. -/
def dropTrailWhile (p : Char → Bool) (l : List Char) : List Char :=
  (l.reverse.dropWhile p).reverse

/-- Python `str.strip(chars)`: drop matching characters from both ends. -/
def stripChars (p : Char → Bool) (l : List Char) : List Char :=
  dropTrailWhile p (l.dropWhile p)

/-- Python `t.strip()`: strip whitespace from both ends. -/
def pyStrip (s : String) : String :=
  String.mk (stripChars Char.isWhitespace s.data)

/-- Python `t.strip('"\'“”‘’')` on an already whitespace-stripped token. -/
def stripQuotes (s : String) : String :=
  String.mk (stripChars (fun c => quoteChars.contains c) s.data)

/-- Python `str.split()` (no separator): split into maximal runs of
non-whitespace characters, dropping empty pieces.  `acc` holds the current
word, reversed. -/
def pyWordsAux : List Char → List Char → List (List Char)
  | [], acc => if acc.isEmpty then [] else [acc.reverse]
  | c :: rest, acc =>
    if c.isWhitespace then
      if acc.isEmpty then pyWordsAux rest [] else acc.reverse :: pyWordsAux rest []
    else
      pyWordsAux rest (c :: acc)

/-- Python `(text).split()` producing strings. -/
def pySplit (s : String) : List String :=
  (pyWordsAux s.data []).map String.mk

/-- Python `" ".join(parts)` over character lists. -/
def joinSpace : List (List Char) → List Char
  | [] => []
  | [w] => w
  | w :: ws => w ++ ' ' :: joinSpace ws

/-- Python `" ".join(text.split())`: collapse whitespace runs to single
spaces and trim the ends. -/
def collapseWs (l : List Char) : List Char :=
  joinSpace (pyWordsAux l [])

/-- The loop `while len(text) > 0 and text[-1] in ",.;:!?…":
text = text[:-1].rstrip()` (subtitles.py lines 71-72), operating on the
reversed character list.  Each iteration removes at least one character, so
fuel equal to the list length makes the recursion total without changing the
result. -/
def stripPunctAux : Nat → List Char → List Char
  | 0, l => l
  | _ + 1, [] => []
  | fuel + 1, c :: rest =>
    if punctTrail.contains c then stripPunctAux fuel (rest.dropWhile Char.isWhitespace)
    else c :: rest

/-- The trailing-punctuation stripping applied when a chunk is not last in its
segment (subtitles.py lines 70-72). -/
def stripTrailingPunct (l : List Char) : List Char :=
  (stripPunctAux l.length l.reverse).reverse

/-- `_clean_chunk_text(tokens, is_last_in_segment)` (subtitles.py lines
66-73): strip whitespace then quotes from each token, join with single spaces,
collapse whitespace, and, when not last in segment, strip trailing
punctuation. -/
def clean_chunk_text (tokens : List String) (is_last_in_segment : Bool) : String :=
  let cleaned := tokens.map (fun t => (stripQuotes (pyStrip t)).data)
  let text := collapseWs (joinSpace cleaned)
  String.mk (if is_last_in_segment then text else stripTrailingPunct text)

/-! ## Caption chunking: `build_chunks_from_words` (subtitles.py lines 76-128) -/

/-- A Whisper word token: `w.word`, `w.start`, `w.end` (the field `end` is a
Lean keyword, written `stop` here). -/
structure Word where
  word : String
  start : ℚ
  stop : ℚ
deriving DecidableEq

/-- An emitted caption cue `{"start": ..., "end": ..., "text": ...}` (the key
`end` is written `stop` here). -/
structure Cue where
  start : ℚ
  stop : ℚ
  text : String
deriving DecidableEq

/-- A transcription segment: `seg.text`, `seg.start`, `seg.end`, `seg.words`.
`start`/`stop` are optional because the source guards them with `or`
fallbacks; `words` may be absent (`none`) or an explicit list. -/
structure Segment where
  text : String
  start : Option ℚ
  stop : Option ℚ
  words : Option (List Word)

/-- The cue-text construction shared by both paths (subtitles.py lines 92-100
and 116-125): a group of at least 3 tokens is split `2 / rest`, the two lines
cleaned and joined with a newline, and the join stripped
(`f"{left_text}\n{right_text}".strip()`); a smaller group is cleaned as a
single line. -/
def mkCueText (group : List String) (isLast : Bool) : String :=
  if 3 ≤ group.length then
    String.mk (stripChars Char.isWhitespace
      ((clean_chunk_text (group.take 2) false).data
        ++ '\n' :: (clean_chunk_text (group.drop 2) isLast).data))
  else
    clean_chunk_text group isLast

/-- The extension loop of Path A (subtitles.py lines 112-115):
`while (end - start) < min_chunk_duration and j < n: j += 1; ...`.
`acc` is the current group, `e` its current end timestamp, `rest` the words
after index `j`.  Returns the final group, its end, and the remaining words. -/
def extendGroup (minDur startT : ℚ) :
    List Word → List Word → ℚ → List Word × ℚ × List Word
  | acc, [], e => (acc, e, [])
  | acc, w :: rs, e =>
    if e - startT < minDur then extendGroup minDur startT (acc ++ [w]) rs w.stop
    else (acc, e, w :: rs)

/-- The outer loop of Path A (subtitles.py lines 105-127) with explicit fuel.
Each iteration consumes at least one word when `maxWords ≥ 1`, so fuel equal
to the word count reproduces the source loop exactly; the source raises
`IndexError` when `max_words = 0` (empty `group[0]`), a case no caller
exercises. -/
def chunkSegAux (maxWords : Nat) (minDur : ℚ) : Nat → List Word → List Cue
  | 0, _ => []
  | _ + 1, [] => []
  | fuel + 1, w :: rest =>
    let g0 := (w :: rest).take maxWords
    let e0 := (g0.getLastD w).stop
    let r := extendGroup minDur w.start g0 ((w :: rest).drop maxWords) e0
    let rawTokens := r.1.map (fun x => pyStrip x.word)
    ⟨w.start, r.2.1, mkCueText rawTokens r.2.2.isEmpty⟩
      :: chunkSegAux maxWords minDur fuel r.2.2

/-- Path A of `build_chunks_from_words` for one segment's word list. -/
def chunkSeg (maxWords : Nat) (minDur : ℚ) (ws : List Word) : List Cue :=
  chunkSegAux maxWords minDur ws.length ws

/-- Path B of `build_chunks_from_words` (subtitles.py lines 80-104) with
explicit fuel: proportional timing over whitespace tokens.  `total` is the
full token count, `segDur` the segment duration; `isLast` is
`(i + len(group)) >= total`, i.e. no tokens remain after this group. -/
def chunkTokensAux (maxWords total : Nat) (segDur : ℚ) :
    Nat → ℚ → List String → List Cue
  | 0, _, _ => []
  | _ + 1, _, [] => []
  | fuel + 1, start, t :: ts =>
    let group := (t :: ts).take maxWords
    let e := start + segDur * ((group.length : ℚ) / (total : ℚ))
    let isLast := ((t :: ts).drop maxWords).isEmpty
    ⟨start, e, mkCueText group isLast⟩
      :: chunkTokensAux maxWords total segDur fuel e ((t :: ts).drop maxWords)

/-- `build_chunks_from_words(segments, max_words, min_chunk_duration)`
(subtitles.py lines 76-128).  `if not words` sends both `None` and an empty
word list to the fallback Path B; a segment whose text has no tokens is
skipped (`continue`).  `start = float(seg.start or 0.0)` and
`seg_dur = max(0.0, float(seg.end or start) - start)`. -/
def build_chunks_from_words (segments : List Segment) (maxWords : Nat)
    (minDur : ℚ) : List Cue :=
  (segments.map (fun seg =>
    match seg.words with
    | some (w :: ws) => chunkSeg maxWords minDur (w :: ws)
    | _ =>
      let tokens := pySplit seg.text
      if tokens.isEmpty then []
      else
        let start := pyOrQ seg.start 0
        chunkTokensAux maxWords tokens.length
          (max 0 (pyOrQ seg.stop start - start)) tokens.length start tokens)).flatten

/-! ## Lemmas about the duration planner -/

lemma eps_pos : (0 : ℚ) < eps := by norm_num [eps]

/-- Whenever the loop reports `needs_trimming`, it has selected at least one
clip (the boundary clip is appended before returning). -/
lemma planLoop_sel_ne_nil_of_trim (t : ℚ) :
    ∀ (l : List ℚ) (acc : ℚ), (planLoop t l acc).2.2 = true → (planLoop t l acc).1 ≠ [] := by
  intro l
  induction l with
  | nil => intro acc h; simp [planLoop] at h
  | cons d rs ih =>
    intro acc h
    by_cases h1 : acc + d < t - eps
    · simp [planLoop, h1]
    · by_cases h2 : eps < max 0 (t - acc)
      · simp [planLoop, h1, h2]
      · simp [planLoop, h1, h2] at h

lemma planFullClips_cons (d : ℚ) (r : List ℚ × ℚ × Bool) (h : r.2.2 = true → r.1 ≠ []) :
    planFullClips (d :: r.1, r.2) = d :: planFullClips r := by
  unfold planFullClips
  by_cases hb : r.2.2
  · simp [hb, List.dropLast_cons_of_ne_nil (h hb)]
  · simp [hb]

/-- Loop invariant of `_compute_clip_plan`'s selection walk: starting from
accumulated duration `acc ≤ t`, the fully kept clips stay within `t`, and
either the kept-plus-trim total lands within `eps` of `t`, or the loop
exhausted the list having included everything with room to spare. -/
lemma planLoop_bound (t : ℚ) :
    ∀ (l : List ℚ) (acc : ℚ), acc ≤ t →
      acc + (planFullClips (planLoop t l acc)).sum ≤ t ∧
      (|acc + (planFullClips (planLoop t l acc)).sum + (planLoop t l acc).2.1 - t| ≤ eps ∨
        (planLoop t l acc = (l, 0, false) ∧ (l ≠ [] → acc + l.sum < t - eps))) := by
  intro l
  induction l with
  | nil =>
    intro acc hacc
    exact ⟨by simpa [planLoop, planFullClips] using hacc, Or.inr ⟨rfl, by simp⟩⟩
  | cons d rs ih =>
    intro acc hacc
    have hepos := eps_pos
    by_cases h1 : acc + d < t - eps
    · have hacc' : acc + d ≤ t := by linarith
      obtain ⟨ihA, ihB⟩ := ih (acc + d) hacc'
      have hcons : planLoop t (d :: rs) acc =
          (d :: (planLoop t rs (acc + d)).1, (planLoop t rs (acc + d)).2) := by
        simp [planLoop, h1]
      rw [hcons, planFullClips_cons d _ (planLoop_sel_ne_nil_of_trim t rs (acc + d)),
        List.sum_cons]
      constructor
      · linarith
      · rcases ihB with hB | ⟨hEq, hLt⟩
        · left
          have hring : acc + (d + (planFullClips (planLoop t rs (acc + d))).sum) +
              (planLoop t rs (acc + d)).2.1 - t
              = acc + d + (planFullClips (planLoop t rs (acc + d))).sum +
                (planLoop t rs (acc + d)).2.1 - t := by ring
          rw [hring]
          exact hB
        · right
          refine ⟨by rw [hEq], ?_⟩
          intro _
          by_cases hrs : rs = []
          · subst hrs; simpa using h1
          · have := hLt hrs
            simp only [List.sum_cons]
            linarith
    · by_cases h2 : eps < max 0 (t - acc)
      · have hcons : planLoop t (d :: rs) acc = ([d], max 0 (t - acc), true) := by
          simp [planLoop, h1, h2]
        have hfc : planFullClips (([d], max 0 (t - acc), true) : List ℚ × ℚ × Bool) = [] := by
          simp [planFullClips]
        have hmax : max 0 (t - acc) = t - acc := max_eq_right (by linarith)
        rw [hcons, hfc, hmax]
        refine ⟨by simpa using hacc, Or.inl ?_⟩
        rw [abs_le]
        constructor <;> simp <;> linarith
      · have h2' : max 0 (t - acc) ≤ eps := le_of_not_lt h2
        have hcons : planLoop t (d :: rs) acc = ([], 0, false) := by
          simp [planLoop, h1, h2]
        have hfc : planFullClips (([], 0, false) : List ℚ × ℚ × Bool) = [] := by
          simp [planFullClips]
        rw [hcons, hfc]
        have h3 : t - acc ≤ eps := le_trans (le_max_right 0 (t - acc)) h2'
        refine ⟨by simpa using hacc, Or.inl ?_⟩
        rw [abs_le]
        constructor <;> simp <;> linarith

lemma planLoop_length_le (t : ℚ) :
    ∀ (l : List ℚ) (acc : ℚ), (planLoop t l acc).1.length ≤ l.length := by
  intro l
  induction l with
  | nil => intro acc; simp [planLoop]
  | cons d rs ih =>
    intro acc
    by_cases h1 : acc + d < t - eps
    · simp only [planLoop, if_pos h1, List.length_cons]
      exact Nat.succ_le_succ (ih (acc + d))
    · by_cases h2 : eps < max 0 (t - acc)
      · simp only [planLoop, if_neg h1, if_pos h2, List.length_cons, List.length_singleton,
          List.length_nil]
        omega
      · simp only [planLoop, if_neg h1, if_neg h2, List.length_cons, List.length_nil]
        omega

/-- The number of clips selected by the loop is monotone in the target. -/
lemma planLoop_length_mono {t1 t2 : ℚ} (h : t1 ≤ t2) :
    ∀ (l : List ℚ) (acc : ℚ),
      (planLoop t1 l acc).1.length ≤ (planLoop t2 l acc).1.length := by
  intro l
  induction l with
  | nil => intro acc; simp [planLoop]
  | cons d rs ih =>
    intro acc
    by_cases h1 : acc + d < t1 - eps
    · have h1' : acc + d < t2 - eps := by linarith
      simp only [planLoop, if_pos h1, if_pos h1', List.length_cons]
      exact Nat.succ_le_succ (ih (acc + d))
    · by_cases h1' : acc + d < t2 - eps
      · simp only [planLoop, if_neg h1, if_pos h1', List.length_cons]
        split <;> simp
      · simp only [planLoop, if_neg h1, if_neg h1']
        have hm : max 0 (t1 - acc) ≤ max 0 (t2 - acc) := max_le_max le_rfl (by linarith)
        by_cases h2 : eps < max 0 (t1 - acc)
        · have h2' : eps < max 0 (t2 - acc) := lt_of_lt_of_le h2 hm
          simp [h2, h2']
        · by_cases h2' : eps < max 0 (t2 - acc) <;> simp [h2, h2']

/-! ## Claim theorems: duration planner -/

/-- Claim C1, counterexample: with a single clip of duration 5 and target
4.9995 — nonnegative durations and a shortfall within ε of the total — the
plan is not "all clips, no trim": the guard at stitcher.py line 39 is
`voiceover_duration >= total` with no epsilon, so the trim path runs and
returns `([5], 4.9995, true)`. -/
theorem clip_plan_eps_shortfall_cex :
    [(5:ℚ)].sum - eps ≤ 9999/2000 ∧ (∀ d ∈ [(5:ℚ)], 0 ≤ d) ∧
    compute_clip_plan [(5:ℚ)] (9999/2000) ≠ ([(5:ℚ)], 0, false) := by
  norm_num [compute_clip_plan, planLoop, eps]

/-- Claim C1, amended: for every non-empty list of clip durations (all ≥ 0)
and every `targetDuration ≥ sum(clipDurations)` — with no ε slack below the
total — `compute_clip_plan` returns all clips unmodified with
`boundaryTrimSeconds = 0` and `needsTrim = false`. -/
theorem clip_plan_full_return_amended (ds : List ℚ) (t : ℚ) (_hne : ds ≠ [])
    (_hnn : ∀ d ∈ ds, 0 ≤ d) (ht : ds.sum ≤ t) :
    compute_clip_plan ds t = (ds, 0, false) := by
  unfold compute_clip_plan
  rw [if_pos ht]

/-- Witness for `clip_plan_full_return_amended` at `ds = [5]`, `t = 6`. -/
theorem clip_plan_full_return_amended_witness :
    compute_clip_plan [(5:ℚ)] 6 = ([(5:ℚ)], 0, false) :=
  clip_plan_full_return_amended [(5:ℚ)] 6 (by simp) (by norm_num)
    (by norm_num [List.sum_cons, List.sum_nil])

/-- Claim C3, counterexample: `_compute_clip_plan` performs no input
validation, so on the empty clip list (a violated precondition per the claim)
it does not signal any `InvalidInput`-style failure: it returns the ordinary
plan `([], 0, false)`. -/
theorem clip_plan_empty_input_cex :
    compute_clip_plan ([] : List ℚ) 0 = ([], 0, false) := by decide

/-- Claim C3, amended: `_compute_clip_plan` never validates its inputs and
never signals `InvalidInput`: an empty clip list yields the plan
`([], 0, false)` for every target, and negative durations are processed by the
same arithmetic without error (here a clip of duration −1 is returned as a
normal full clip). -/
theorem clip_plan_no_validation_amended :
    (∀ t : ℚ, compute_clip_plan [] t = ([], 0, false)) ∧
    compute_clip_plan [(-1 : ℚ)] 1 = ([(-1 : ℚ)], 0, false) := by
  constructor
  · intro t
    unfold compute_clip_plan
    split <;> rfl
  · norm_num [compute_clip_plan, planLoop, eps]

/-- Claim C4, counterexample: for the negative target −1 (which is
`< sum(clipDurations)`), the plan selects nothing, and the selected full
durations (sum 0) do not satisfy `≤ targetDuration`, nor is 0 within ε of −1;
the claim needs the extra hypothesis `targetDuration ≥ 0`. -/
theorem clip_plan_minimality_cex :
    (-1 : ℚ) < [(5:ℚ)].sum ∧
    ¬ ((planFullClips (compute_clip_plan [(5:ℚ)] (-1))).sum ≤ -1) := by
  norm_num [compute_clip_plan, planLoop, eps, planFullClips]

/-- Claim C4, amended: for every non-empty `clipDurations` and every
`0 ≤ targetDuration < sum(clipDurations)`, the clips kept at full length sum
to ≤ `targetDuration` and that sum plus `boundaryTrimSeconds` is within ε of
`targetDuration`; and on `[5, 5, 5]` with target 12 the plan keeps the first
two clips fully and trims the third to 2.0 seconds with `needsTrim = true`. -/
theorem clip_plan_minimality_amended :
    (∀ (ds : List ℚ) (t : ℚ), ds ≠ [] → 0 ≤ t → t < ds.sum →
      (planFullClips (compute_clip_plan ds t)).sum ≤ t ∧
      |(planFullClips (compute_clip_plan ds t)).sum + (compute_clip_plan ds t).2.1 - t| ≤ eps) ∧
    compute_clip_plan [5, 5, 5] 12 = ([5, 5, 5], 2, true) := by
  constructor
  · intro ds t hne ht0 hts
    have hcp : compute_clip_plan ds t = planLoop t ds 0 := by
      unfold compute_clip_plan
      rw [if_neg (not_le.mpr hts)]
    rw [hcp]
    obtain ⟨hA, hB⟩ := planLoop_bound t ds 0 ht0
    rcases hB with hB | ⟨_, hLt⟩
    · constructor
      · linarith
      · have hring : (planFullClips (planLoop t ds 0)).sum + (planLoop t ds 0).2.1 - t
            = 0 + (planFullClips (planLoop t ds 0)).sum + (planLoop t ds 0).2.1 - t := by ring
        rw [hring]
        exact hB
    · exfalso
      have h1 := hLt hne
      have h2 := eps_pos
      linarith
  · norm_num [compute_clip_plan, planLoop, eps]

/-- Witness for `clip_plan_minimality_amended` at `ds = [5, 5, 5]`, `t = 12`. -/
theorem clip_plan_minimality_amended_witness :
    (planFullClips (compute_clip_plan [5, 5, 5] 12)).sum ≤ 12 ∧
    |(planFullClips (compute_clip_plan [5, 5, 5] 12)).sum +
      (compute_clip_plan [5, 5, 5] 12).2.1 - 12| ≤ eps :=
  clip_plan_minimality_amended.1 [5, 5, 5] 12 (by simp) (by norm_num)
    (by norm_num [List.sum_cons, List.sum_nil])

/-- Claim C6: for a fixed non-empty duration list, the number of selected
clips is monotone non-decreasing in the target duration. -/
theorem clip_plan_monotone (ds : List ℚ) (t1 t2 : ℚ) (_hne : ds ≠ []) (h : t1 ≤ t2) :
    (compute_clip_plan ds t1).1.length ≤ (compute_clip_plan ds t2).1.length := by
  unfold compute_clip_plan
  by_cases hs2 : ds.sum ≤ t2
  · rw [if_pos hs2]
    by_cases hs1 : ds.sum ≤ t1
    · rw [if_pos hs1]
    · rw [if_neg hs1]
      simpa using planLoop_length_le t1 ds 0
  · have hs1 : ¬ ds.sum ≤ t1 := fun hc => hs2 (hc.trans h)
    rw [if_neg hs1, if_neg hs2]
    exact planLoop_length_mono h ds 0

/-- Witness for `clip_plan_monotone` at `ds = [5]`, `t1 = 1`, `t2 = 100`. -/
theorem clip_plan_monotone_witness :
    (compute_clip_plan [(5:ℚ)] 1).1.length ≤ (compute_clip_plan [(5:ℚ)] 100).1.length :=
  clip_plan_monotone [(5:ℚ)] 1 100 (by simp) (by norm_num)

/-- Claim C7: for every non-empty `clipDurations` and every
`targetDuration ≥ sum(clipDurations)`, the plan returns all clips in order
with `needsTrim = false` and `boundaryTrimSeconds = 0` (the guard at
stitcher.py line 39). -/
theorem clip_plan_full_when_target_ge_total (ds : List ℚ) (t : ℚ) (_hne : ds ≠ [])
    (ht : ds.sum ≤ t) : compute_clip_plan ds t = (ds, 0, false) := by
  unfold compute_clip_plan
  rw [if_pos ht]

/-- Witness for `clip_plan_full_when_target_ge_total` at `ds = [5, 5]`,
`t = 10` (the spec's own example). -/
theorem clip_plan_full_when_target_ge_total_witness :
    compute_clip_plan [(5:ℚ), 5] 10 = ([(5:ℚ), 5], 0, false) :=
  clip_plan_full_when_target_ge_total [(5:ℚ), 5] 10 (by simp)
    (by norm_num [List.sum_cons, List.sum_nil])

/-- Claim C8, counterexample: the plan for one 5-second clip against target
0.005 reports `needsTrim = true` with `boundaryTrimSeconds = 0.005`, yet the
coordinator issues no trim command at all: the guard at stitcher.py line 178
additionally requires `last_clip_target_len > 0.01`. -/
theorem boundary_trim_small_remainder_cex :
    (compute_clip_plan [(5:ℚ)] (1/200)).2.2 = true ∧
    coordinatorTrimRequest (compute_clip_plan [(5:ℚ)] (1/200)).2.2
      (compute_clip_plan [(5:ℚ)] (1/200)).2.1 (some 5) = none := by
  norm_num [compute_clip_plan, planLoop, eps, coordinatorTrimRequest]

/-- Claim C8, amended: whenever the plan reports `needsTrim = true` **and**
`boundaryTrimSeconds > 0.01`, the coordinator trims the boundary clip,
requesting a cut from the clip's start of length
`min(sourceActualDuration, boundaryTrimSeconds + safetyMargin)` with
`safetyMargin = 0.05` seconds. -/
theorem boundary_trim_request_amended (ds : List ℚ) (t : ℚ) (srcDur : Option ℚ)
    (hnt : (compute_clip_plan ds t).2.2 = true)
    (hgt : 1/100 < (compute_clip_plan ds t).2.1) :
    coordinatorTrimRequest (compute_clip_plan ds t).2.2 (compute_clip_plan ds t).2.1 srcDur
      = some (min (pyOrQ srcDur (compute_clip_plan ds t).2.1)
          ((compute_clip_plan ds t).2.1 + SAFETY_MARGIN_SEC)) := by
  unfold coordinatorTrimRequest
  rw [if_pos ⟨hnt, hgt⟩]

/-- Witness for `boundary_trim_request_amended` at `ds = [5, 5]`, `t = 7`,
source duration 5: the trim is 2 and the requested cut is
`min(5, 2 + 0.05) = 2.05`. -/
theorem boundary_trim_request_amended_witness :
    coordinatorTrimRequest (compute_clip_plan [(5:ℚ), 5] 7).2.2
      (compute_clip_plan [(5:ℚ), 5] 7).2.1 (some 5)
      = some (min (pyOrQ (some 5) (compute_clip_plan [(5:ℚ), 5] 7).2.1)
          ((compute_clip_plan [(5:ℚ), 5] 7).2.1 + SAFETY_MARGIN_SEC)) :=
  boundary_trim_request_amended [(5:ℚ), 5] 7 (some 5)
    (by norm_num [compute_clip_plan, planLoop, eps])
    (by norm_num [compute_clip_plan, planLoop, eps])

/-! ## Lemmas about the caption chunker -/

/-- The extension loop hands back unconsumed words only after the current
group reaches the minimum duration: if any words remain, the returned end
satisfies the floor relative to the cue start. -/
lemma extendGroup_min (minDur startT : ℚ) :
    ∀ (rest acc : List Word) (e : ℚ),
      (extendGroup minDur startT acc rest e).2.2 ≠ [] →
      minDur ≤ (extendGroup minDur startT acc rest e).2.1 - startT := by
  intro rest
  induction rest with
  | nil => intro acc e h; simp [extendGroup] at h
  | cons w rs ih =>
    intro acc e h
    by_cases hc : e - startT < minDur
    · simp only [extendGroup, if_pos hc] at h ⊢
      exact ih (acc ++ [w]) w.stop h
    · simp only [extendGroup, if_neg hc] at h ⊢
      linarith [not_lt.mp hc]

lemma chunkSegAux_nil (mw : Nat) (md : ℚ) : ∀ fuel, chunkSegAux mw md fuel [] = [] := by
  intro fuel
  cases fuel <;> rfl

/-- Every cue of a segment run except possibly the last one satisfies the
duration floor, for any fuel (truncation only removes trailing cues). -/
lemma chunkSegAux_floor (mw : Nat) (md : ℚ) :
    ∀ (fuel : Nat) (ws : List Word),
      ∀ c ∈ (chunkSegAux mw md fuel ws).dropLast, md ≤ c.stop - c.start := by
  intro fuel
  induction fuel with
  | zero => intro ws c hc; simp [chunkSegAux] at hc
  | succ fuel ih =>
    intro ws c hc
    cases ws with
    | nil => simp [chunkSegAux] at hc
    | cons w rest =>
      simp only [chunkSegAux] at hc
      rcases htail : chunkSegAux mw md fuel
          (extendGroup md w.start ((w :: rest).take mw) ((w :: rest).drop mw)
            (((w :: rest).take mw).getLastD w).stop).2.2 with _ | ⟨c2, cs⟩
      · rw [htail] at hc
        simp at hc
      · rw [htail, List.dropLast_cons₂] at hc
        rcases List.mem_cons.mp hc with hc | hc
        · have hrem : (extendGroup md w.start ((w :: rest).take mw) ((w :: rest).drop mw)
              (((w :: rest).take mw).getLastD w).stop).2.2 ≠ [] := by
            intro h0
            rw [h0, chunkSegAux_nil] at htail
            exact List.cons_ne_nil c2 cs htail.symm
          subst hc
          simpa using extendGroup_min md w.start _ _ _ hrem
        · rw [← htail] at hc
          exact ih _ c hc

/-- Every piece produced by the whitespace splitter consists of
non-whitespace characters (provided the accumulator does too). -/
lemma pyWordsAux_no_ws :
    ∀ (l acc : List Char), (∀ c ∈ acc, c.isWhitespace = false) →
      ∀ w ∈ pyWordsAux l acc, ∀ c ∈ w, c.isWhitespace = false := by
  intro l
  induction l with
  | nil =>
    intro acc hacc w hw c hc
    by_cases ha : acc.isEmpty
    · simp [pyWordsAux, ha] at hw
    · simp [pyWordsAux, ha] at hw
      subst hw
      exact hacc c (by simpa using hc)
  | cons x rest ih =>
    intro acc hacc w hw c hc
    by_cases hx : x.isWhitespace = true
    · by_cases ha : acc.isEmpty
      · simp only [pyWordsAux, hx, if_true, ha] at hw
        exact ih [] (by simp) w hw c hc
      · simp only [pyWordsAux, hx, if_true, ha, if_false] at hw
        rcases List.mem_cons.mp hw with hw | hw
        · subst hw
          exact hacc c (by simpa using hc)
        · exact ih [] (by simp) w hw c hc
    · simp only [pyWordsAux, hx, if_false] at hw
      refine ih (x :: acc) ?_ w hw c hc
      intro d hd
      rcases List.mem_cons.mp hd with hd | hd
      · subst hd; simpa using hx
      · exact hacc d hd

/-- A character of a space-join is either the separator or a character of one
of the pieces. -/
lemma mem_joinSpace :
    ∀ (ws : List (List Char)) (c : Char), c ∈ joinSpace ws → c = ' ' ∨ ∃ w ∈ ws, c ∈ w := by
  intro ws
  induction ws with
  | nil => intro c hc; simp [joinSpace] at hc
  | cons w tail ih =>
    intro c hc
    cases tail with
    | nil => exact Or.inr ⟨w, by simp, by simpa [joinSpace] using hc⟩
    | cons t ts =>
      simp only [joinSpace] at hc
      rcases List.mem_append.mp hc with hc | hc
      · exact Or.inr ⟨w, by simp, hc⟩
      · rcases List.mem_cons.mp hc with hc | hc
        · exact Or.inl hc
        · rcases ih c hc with h | ⟨w2, hw2, hcw⟩
          · exact Or.inl h
          · exact Or.inr ⟨w2, by simp [hw2], hcw⟩

lemma stripPunctAux_subset :
    ∀ (fuel : Nat) (l : List Char) (c : Char), c ∈ stripPunctAux fuel l → c ∈ l := by
  intro fuel
  induction fuel with
  | zero =>
    intro l c hc
    simp only [stripPunctAux] at hc
    exact hc
  | succ fuel ih =>
    intro l c hc
    cases l with
    | nil => simp [stripPunctAux] at hc
    | cons x rest =>
      by_cases hx : punctTrail.contains x = true
      · simp only [stripPunctAux, hx, if_true] at hc
        exact List.mem_cons_of_mem x ((List.dropWhile_sublist _).subset (ih _ c hc))
      · simp only [stripPunctAux, hx, if_false] at hc
        exact hc

lemma mem_of_mem_stripTrailingPunct (l : List Char) (c : Char)
    (hc : c ∈ stripTrailingPunct l) : c ∈ l := by
  unfold stripTrailingPunct at hc
  rw [List.mem_reverse] at hc
  have h2 := stripPunctAux_subset _ _ _ hc
  rwa [List.mem_reverse] at h2

lemma collapseWs_no_newline (l : List Char) : '\n' ∉ collapseWs l := by
  intro h
  rcases mem_joinSpace (pyWordsAux l []) '\n' h with h1 | ⟨w, hw, hcw⟩
  · exact absurd h1 (by decide)
  · exact absurd (pyWordsAux_no_ws l [] (by simp) w hw '\n' hcw) (by decide)

/-- Cleaned chunk text never contains a newline: whitespace (including any
newline inside a token) is collapsed to single spaces. -/
lemma clean_chunk_text_no_newline (tokens : List String) (isLast : Bool) :
    '\n' ∉ (clean_chunk_text tokens isLast).data := by
  unfold clean_chunk_text
  cases isLast
  · intro h
    exact collapseWs_no_newline _ (mem_of_mem_stripTrailingPunct _ _ (by simpa using h))
  · intro h
    exact collapseWs_no_newline _ (by simpa using h)

lemma stripChars_sublist (p : Char → Bool) (l : List Char) :
    List.Sublist (stripChars p l) l := by
  unfold stripChars dropTrailWhile
  refine List.Sublist.trans ?_ (List.dropWhile_sublist p)
  have h1 : List.Sublist ((l.dropWhile p).reverse.dropWhile p).reverse
      (l.dropWhile p).reverse.reverse :=
    (List.dropWhile_sublist p).reverse
  rwa [List.reverse_reverse] at h1

/-- The shared cue-text construction yields at most one newline: the two
cleaned lines are newline-free and joined by a single line break, then only
stripped. -/
lemma mkCueText_newline_count (group : List String) (isLast : Bool) :
    ((mkCueText group isLast).data.count '\n') ≤ 1 := by
  unfold mkCueText
  by_cases h3 : 3 ≤ group.length
  · rw [if_pos h3]
    have e1 : ((clean_chunk_text (group.take 2) false).data.count '\n') = 0 :=
      List.count_eq_zero.mpr (clean_chunk_text_no_newline _ _)
    have e2 : ((clean_chunk_text (group.drop 2) isLast).data.count '\n') = 0 :=
      List.count_eq_zero.mpr (clean_chunk_text_no_newline _ _)
    have hcount := (stripChars_sublist Char.isWhitespace
      ((clean_chunk_text (group.take 2) false).data
        ++ '\n' :: (clean_chunk_text (group.drop 2) isLast).data)).count_le '\n'
    have hfull : (((clean_chunk_text (group.take 2) false).data
        ++ '\n' :: (clean_chunk_text (group.drop 2) isLast).data).count '\n') = 1 := by
      simp [List.count_append, e1, e2]
    rw [hfull] at hcount
    simpa using hcount
  · rw [if_neg h3]
    simp [List.count_eq_zero.mpr (clean_chunk_text_no_newline group isLast)]

lemma chunkSegAux_newline (mw : Nat) (md : ℚ) :
    ∀ (fuel : Nat) (ws : List Word) (c : Cue), c ∈ chunkSegAux mw md fuel ws →
      (c.text.data.count '\n') ≤ 1 := by
  intro fuel
  induction fuel with
  | zero => intro ws c hc; simp [chunkSegAux] at hc
  | succ fuel ih =>
    intro ws c hc
    cases ws with
    | nil => simp [chunkSegAux] at hc
    | cons w rest =>
      simp only [chunkSegAux, List.mem_cons] at hc
      rcases hc with hc | hc
      · subst hc
        exact mkCueText_newline_count _ _
      · exact ih _ c hc

lemma chunkTokensAux_newline (mw total : Nat) (segDur : ℚ) :
    ∀ (fuel : Nat) (start : ℚ) (toks : List String) (c : Cue),
      c ∈ chunkTokensAux mw total segDur fuel start toks →
      (c.text.data.count '\n') ≤ 1 := by
  intro fuel
  induction fuel with
  | zero => intro start toks c hc; simp [chunkTokensAux] at hc
  | succ fuel ih =>
    intro start toks c hc
    cases toks with
    | nil => simp [chunkTokensAux] at hc
    | cons t ts =>
      simp only [chunkTokensAux, List.mem_cons] at hc
      rcases hc with hc | hc
      · subst hc
        exact mkCueText_newline_count _ _
      · exact ih _ _ c hc

/-! ## Claim theorems: caption chunker -/

/-- Claim C2 (code bug): `_clean_chunk_text(["Hello","world","!"], False)`
yields `"Hello world"` as claimed, but with `is_last_in_segment = True` the
code yields `"Hello world !"` — the tokens are joined with single spaces, so
the separate punctuation token keeps a space before it, not the claimed
`"Hello world!"` (which is also what the repository's own test
`test_clean_chunk_text_keep_punctuation_when_last` in
`src/tests/test_subtitles.py` asserts).  This theorem evaluates the code at
the failing input. -/
theorem clean_text_bang_token_eval :
    clean_chunk_text ["Hello", "world", "!"] false = "Hello world" ∧
    clean_chunk_text ["Hello", "world", "!"] true = "Hello world !" := by decide

/-- Claim C5: in the word-timestamp path, every emitted cue except possibly
the last cue of a segment satisfies `endSeconds - startSeconds ≥
minChunkDuration`: the extension loop keeps absorbing words — even beyond
`maxWords` — until the floor is met or the segment's words run out, and only
a final group may fall short (it is emitted as-is). -/
theorem chunk_duration_floor (maxWords : Nat) (minDur : ℚ) (ws : List Word)
    (_hmw : 1 ≤ maxWords) :
    ∀ c ∈ (chunkSeg maxWords minDur ws).dropLast, minDur ≤ c.stop - c.start :=
  chunkSegAux_floor maxWords minDur ws.length ws

/-- Witness for `chunk_duration_floor`: with `maxWords = 1`, `minDur = 1/2`
and two words, the first (non-last) cue `(0, 1, "a")` meets the floor. -/
theorem chunk_duration_floor_witness :
    (1:ℚ)/2 ≤ (Cue.mk 0 1 "a").stop - (Cue.mk 0 1 "a").start :=
  chunk_duration_floor 1 (1/2) [⟨"a", 0, 1⟩, ⟨"b", 1, 2⟩] (by norm_num)
    (Cue.mk 0 1 "a") (by
      have hEval : chunkSeg 1 (1/2) [⟨"a", 0, 1⟩, ⟨"b", 1, 2⟩]
          = [⟨0, 1, "a"⟩, ⟨1, 2, "b"⟩] := by
        norm_num [chunkSeg, chunkSegAux, extendGroup, mkCueText, clean_chunk_text,
          pyStrip, stripChars, dropTrailWhile, stripQuotes, collapseWs, joinSpace,
          pyWordsAux, stripTrailingPunct, stripPunctAux, quoteChars, punctTrail]
        decide
      rw [hEval]
      simp)

/-- Claim C9, counterexample: a three-token group whose first two tokens are
bare double quotes cleans its first line to the empty string, and the final
`.strip()` of the joined text (subtitles.py lines 98 and 123) then deletes
the line break: the emitted text is `"hi"`, not the claimed
`line1 + "\n" + line2 = "\nhi"`. -/
theorem two_line_join_cex :
    build_chunks_from_words
      [⟨"", none, none, some [⟨"\"", 0, 1⟩, ⟨"\"", 1, 2⟩, ⟨"hi", 2, 3⟩]⟩] 4 (3/5)
      = [⟨0, 3, "hi"⟩] ∧
    ("hi" : String) ≠
      clean_chunk_text ["\"", "\""] false ++ "\n" ++ clean_chunk_text ["hi"] true := by
  decide

/-- Claim C9, amended: every cue emitted by `build_chunks_from_words` (both
paths) has a text with at most one line-break character — at most two lines.
Groups of ≥ 3 tokens are split `2 / rest`, the lines cleaned as claimed and
joined with a newline, but the joined string is then stripped of surrounding
whitespace, so an empty first or second line collapses the cue to a single
line; groups of < 3 tokens yield a single line. -/
theorem cue_text_two_lines_amended (segments : List Segment) (maxWords : Nat)
    (minDur : ℚ) :
    ∀ c ∈ build_chunks_from_words segments maxWords minDur,
      (c.text.data.count '\n') ≤ 1 := by
  intro c hc
  unfold build_chunks_from_words at hc
  rw [List.mem_flatten] at hc
  rcases hc with ⟨l, hl, hcl⟩
  rw [List.mem_map] at hl
  rcases hl with ⟨seg, _, rfl⟩
  rcases hw : seg.words with _ | ws
  · rw [hw] at hcl
    dsimp only at hcl
    by_cases hts : (pySplit seg.text).isEmpty
    · rw [if_pos hts] at hcl
      simp at hcl
    · rw [if_neg hts] at hcl
      exact chunkTokensAux_newline _ _ _ _ _ _ c hcl
  · cases ws with
    | nil =>
      rw [hw] at hcl
      dsimp only at hcl
      by_cases hts : (pySplit seg.text).isEmpty
      · rw [if_pos hts] at hcl
        simp at hcl
      · rw [if_neg hts] at hcl
        exact chunkTokensAux_newline _ _ _ _ _ _ c hcl
    | cons w ws =>
      rw [hw] at hcl
      dsimp only at hcl
      exact chunkSegAux_newline _ _ _ _ c hcl

/-- Witness for `cue_text_two_lines_amended`: a three-word segment produces
the cue `(0, 3, "a b\nc")`, whose text has exactly one line break. -/
theorem cue_text_two_lines_amended_witness :
    (((Cue.mk 0 3 "a b\nc").text.data.count '\n')) ≤ 1 :=
  cue_text_two_lines_amended
    [⟨"", none, none, some [⟨"a", 0, 1⟩, ⟨"b", 1, 2⟩, ⟨"c", 2, 3⟩]⟩] 4 (3/5)
    (Cue.mk 0 3 "a b\nc") (by decide)

/-- Claim C10: `build_chunks_from_words` can emit a cue whose text is the
empty string: a single word consisting of one double-quote character cleans
to `""`, yet the cue `(0, 1, "")` is still appended; only segments with zero
tokens are skipped (second conjunct: a wordless segment with empty text
produces no cue). -/
theorem empty_text_cue_emitted :
    build_chunks_from_words [⟨"", none, none, some [⟨"\"", 0, 1⟩]⟩] 4 (3/5)
      = [⟨0, 1, ""⟩] ∧
    build_chunks_from_words [⟨"", none, none, none⟩] 4 (3/5) = [] := by decide
